import Mathlib

/-!
Verification of the gossiper node core: a last-write-wins player-state map,
its merge/update/snapshot operations, the gossip tick, and the HTTP update
handler.  The Go `map[string]PlayerState` is modelled as an association list
with at most one entry per key; `int64` scores and timestamps are modelled as
unbounded integers (the code only stores and compares them, so no overflow
arithmetic occurs).  Wall-clock time and the random peer index are explicit
inputs of the model.
-/

namespace Gossiper

/-- Mirrors the Go struct `PlayerState { Score int64; Timestamp int64 }`. -/
structure PlayerState where
  score : Int
  timestamp : Int
  deriving DecidableEq

/-- The contents of a Go `map[string]PlayerState`. -/
abbrev Store := List (String × PlayerState)

/-- Go map read `m[k]` (value and presence). -/
def lookup : Store → String → Option PlayerState
  | [], _ => none
  | e :: rest, pid => if e.1 = pid then some e.2 else lookup rest pid

/-- Go map write `m[k] = v`: overwrite the entry for the key, or add one. -/
def insert : Store → String → PlayerState → Store
  | [], pid, st => [(pid, st)]
  | e :: rest, pid, st =>
    if e.1 = pid then (pid, st) :: rest else e :: insert rest pid st

/-- One iteration of the loop body of `MergeState`: replace the local entry
iff the player is absent locally or the incoming timestamp is strictly
greater. -/
def mergeEntry (store : Store) (entry : String × PlayerState) : Store :=
  match lookup store entry.1 with
  | none => insert store entry.1 entry.2
  | some localState =>
    if entry.2.timestamp > localState.timestamp then
      insert store entry.1 entry.2
    else
      store

/-- Function `MergeState` on the player map: fold the loop body over the incoming
map's entries. -/
def mergeState (store : Store) (incomingMap : Store) : Store :=
  incomingMap.foldl mergeEntry store

/-- Function `UpdatePlayerScore` on the player map: unconditionally store the score
with the current wall-clock time `now` (`time.Now().UnixNano()` is an input
of the model). -/
def updatePlayerScore (store : Store) (playerId : String) (score : Int)
    (now : Int) : Store :=
  insert store playerId { score := score, timestamp := now }

/-- Function `GetPlayerState` on the player map: build a fresh map holding a copy of
every entry. -/
def getPlayerState (store : Store) : Store :=
  store.foldl (fun result e => insert result e.1 e.2) []

/-- Mirrors the Go struct `GameServer` (the mutex guards the map in Go; in
the sequential model each operation is already atomic). -/
structure GameServer where
  ID : String
  Address : String
  Peers : List String
  PlayerMap : Store
  deriving DecidableEq

/-- Constructor `NewGameServer`. -/
def NewGameServer (id addr : String) (peers : List String) : GameServer :=
  { ID := id, Address := addr, Peers := peers, PlayerMap := [] }

/-- Method `MergeState`. -/
def GameServer.MergeState (gs : GameServer) (incomingMap : Store) :
    GameServer :=
  { gs with PlayerMap := mergeState gs.PlayerMap incomingMap }

/-- Method `UpdatePlayerScore` (wall-clock `now` is an input of the model). -/
def GameServer.UpdatePlayerScore (gs : GameServer) (playerId : String)
    (score : Int) (now : Int) : GameServer :=
  { gs with PlayerMap := updatePlayerScore gs.PlayerMap playerId score now }

/-- Method `GetPlayerState`. -/
def GameServer.GetPlayerState (gs : GameServer) : Store :=
  getPlayerState gs.PlayerMap

/-- Function `gossipWithPeer`: marshal a snapshot of the map and POST it to the peer.
`postOk` is the outcome of the POST; on failure the Go function just returns
(the error is discarded), so both branches leave the server unchanged and
propagate no error.  Returns the server, the payload that was handed to the
transport, and the error propagated to the caller (always `none`). -/
def GameServer.gossipWithPeer (gs : GameServer) (peerAddr : String)
    (postOk : Bool) : GameServer × Store × Option String :=
  let payload := getPlayerState gs.PlayerMap
  if postOk then (gs, payload, none) else (gs, payload, none)

/-- One tick of `gossipLoop`: if the peer list is empty the tick does
nothing (`continue`); otherwise one peer is picked by the random index `r`
(`rand.Intn` is modelled by `r % length`) and the snapshot is delivered.
Returns the server after the tick and the delivery attempt (peer address and
payload), `none` when no attempt was made. -/
def GameServer.gossipTick (gs : GameServer) (r : Nat) (postOk : Bool) :
    GameServer × Option (String × Store) :=
  if gs.Peers.length = 0 then
    (gs, none)
  else
    let peerAddr := gs.Peers.getD (r % gs.Peers.length) ""
    let res := gs.gossipWithPeer peerAddr postOk
    (res.1, some (peerAddr, res.2.1))

/-- The space runes discarded by an `fmt` scanning verb (the `space` table
of `fmt/scan.go`), except `\n`: under `Sscanf` a newline in the input must
match a newline in the format, so a `%d`-only format errors on it (`\r`
immediately followed by `\n` is treated as a newline, which this table also
reproduces: the `\r` is skipped and the scan then stops at the `\n`). -/
def isGoSpace (c : Char) : Bool :=
  (0x0009 ≤ c.toNat && c.toNat ≤ 0x000d && !(c.toNat == 0x000a)) ||
    c.toNat == 0x0020 || c.toNat == 0x0085 || c.toNat == 0x00a0 ||
    c.toNat == 0x1680 || (0x2000 ≤ c.toNat && c.toNat ≤ 0x200a) ||
    c.toNat == 0x2028 || c.toNat == 0x2029 || c.toNat == 0x202f ||
    c.toNat == 0x205f || c.toNat == 0x3000

/-- Digit run collected by the `%d` verb: at least one decimal digit;
scanning stops at the first non-digit (trailing characters are ignored by a
`%d`-only format). -/
def scanDigits (cs : List Char) : Option Nat :=
  let ds := cs.takeWhile Char.isDigit
  if ds.isEmpty then none
  else some (ds.foldl (fun a c => a * 10 + (c.toNat - 48)) 0)

/-- Model of `fmt.Sscanf(s, "%d", &score)` into a 64-bit `int`: after
optional leading space runes, an optional sign followed by at least one
digit, converted by `strconv.ParseInt(token, 10, 64)`; `none` models a
`Sscanf` error, including the out-of-int64-range error (above
`2^63 - 1`, or below `-2^63` for a negative token). -/
def scanInt (s : String) : Option Int :=
  match s.toList.dropWhile isGoSpace with
  | '-' :: rest =>
    match scanDigits rest with
    | none => none
    | some n => if n ≤ 9223372036854775808 then some (-(n : Int)) else none
  | '+' :: rest =>
    match scanDigits rest with
    | none => none
    | some n => if n ≤ 9223372036854775807 then some (n : Int) else none
  | rest =>
    match scanDigits rest with
    | none => none
    | some n => if n ≤ 9223372036854775807 then some (n : Int) else none

/-- Handler `HandleUpdate`: reject an empty `playerId` or `score` query parameter
with 400, reject an unscannable score with 400, otherwise call
`UpdatePlayerScore` and answer 200.  Returns the server after the request
and the HTTP status code. -/
def HandleUpdate (gs : GameServer) (playerId scoreStr : String) (now : Int) :
    GameServer × Nat :=
  if playerId = "" || scoreStr = "" then (gs, 400)
  else
    match scanInt scoreStr with
    | none => (gs, 400)
    | some score => (gs.UpdatePlayerScore playerId score now, 200)

/-- A client-visible operation on the store: a local write (with its
wall-clock stamp) or a merge of an incoming payload. -/
inductive Op where
  | set (playerId : String) (score : Int) (now : Int)
  | merge (incomingMap : Store)
  deriving DecidableEq

/-- Apply one operation to the player map. -/
def applyOp (s : Store) : Op → Store
  | .set pid sc now => updatePlayerScore s pid sc now
  | .merge m => mergeState s m

/-- Run a sequence of operations. -/
def run (s : Store) (ops : List Op) : Store :=
  ops.foldl applyOp s

/-- The incoming entries of a payload for one player id, in payload order. -/
def candidates (p : Store) (k : String) : List PlayerState :=
  (p.filter (fun e => e.1 = k)).map Prod.snd

/-- Every value observed for player `k` in a run: local writes to `k` and
payload entries for `k`, in operation order. -/
def observed (k : String) : List Op → List PlayerState
  | [] => []
  | .set pid sc now :: rest =>
    (if pid = k then [{ score := sc, timestamp := now }] else []) ++
      observed k rest
  | .merge m :: rest => candidates m k ++ observed k rest

/-- Clock discipline for player `k`: every local write to `k` carries a
timestamp strictly greater than every value observed for `k` before it
(`past` accumulates the values already observed). -/
def setFreshAux (k : String) (past : List PlayerState) : List Op → Bool
  | [] => true
  | .set pid sc now :: rest =>
    (if pid = k then past.all (fun e => e.timestamp < now) else true) &&
      setFreshAux k
        (past ++ (if pid = k then [{ score := sc, timestamp := now }] else []))
        rest
  | .merge m :: rest => setFreshAux k (past ++ candidates m k) rest

/-- Clock discipline for a whole run started on the empty store. -/
def setFresh (k : String) (ops : List Op) : Bool :=
  setFreshAux k [] ops

/-- A server-level operation: a gossip tick (with its random index and POST
outcome), a direct delivery to one peer, a local write, an incoming merge,
or a snapshot read. -/
inductive ServerOp where
  | tick (r : Nat) (postOk : Bool)
  | deliver (peerAddr : String) (postOk : Bool)
  | update (playerId : String) (score : Int) (now : Int)
  | mergeIncoming (incomingMap : Store)
  | snapshot
  deriving DecidableEq

/-- Apply one server-level operation to a server. -/
def applyServerOp (gs : GameServer) : ServerOp → GameServer
  | .tick r postOk => (gs.gossipTick r postOk).1
  | .deliver peerAddr postOk => (gs.gossipWithPeer peerAddr postOk).1
  | .update pid sc now => gs.UpdatePlayerScore pid sc now
  | .mergeIncoming m => gs.MergeState m
  | .snapshot => gs

/-- The per-key effect of one iteration of the `MergeState` loop on the
value stored for that key. -/
def step : Option PlayerState → PlayerState → Option PlayerState
  | none, c => some c
  | some v, c => if c.timestamp > v.timestamp then some c else some v

/-- The per-key merge step folded over a list of incoming values. -/
def best (v : Option PlayerState) (cs : List PlayerState) :
    Option PlayerState :=
  cs.foldl step v

lemma lookup_insert (s : Store) (k : String) (v : PlayerState) (q : String) :
    lookup (insert s k v) q = if k = q then some v else lookup s q := by
  induction s with
  | nil => simp [insert, lookup]
  | cons e rest ih =>
    by_cases h : e.1 = k
    · by_cases hq : k = q <;> simp [insert, lookup, h, hq]
    · by_cases hq : e.1 = q
      · have hk : k ≠ q := fun hkq => h (hq ▸ hkq ▸ rfl)
        simp [insert, lookup, h, hq, hk, Ne.symm hk]
      · simp [insert, lookup, h, hq, ih]

lemma lookup_mergeEntry (s : Store) (e : String × PlayerState) (q : String) :
    lookup (mergeEntry s e) q =
      if e.1 = q then step (lookup s q) e.2 else lookup s q := by
  unfold mergeEntry
  cases hl : lookup s e.1 with
  | none =>
    rw [lookup_insert]
    by_cases h : e.1 = q
    · subst h; rw [hl]; simp [step]
    · simp [h]
  | some w =>
    by_cases hgt : e.2.timestamp > w.timestamp
    · simp only [hgt, if_pos]
      rw [lookup_insert]
      by_cases h : e.1 = q
      · subst h; rw [hl]; simp [step, hgt]
      · simp [h]
    · simp only [hgt, if_neg, if_false]
      by_cases h : e.1 = q
      · subst h; rw [hl]; simp [step, hgt]
      · simp [h]

lemma mergeState_cons (s : Store) (e : String × PlayerState) (p : Store) :
    mergeState s (e :: p) = mergeState (mergeEntry s e) p := rfl

lemma candidates_cons (e : String × PlayerState) (p : Store) (k : String) :
    candidates (e :: p) k =
      if e.1 = k then e.2 :: candidates p k else candidates p k := by
  by_cases h : e.1 = k <;> simp [candidates, List.filter_cons, h]

lemma lookup_mergeState (s p : Store) (k : String) :
    lookup (mergeState s p) k = best (lookup s k) (candidates p k) := by
  induction p generalizing s with
  | nil => rfl
  | cons e p ih =>
    rw [mergeState_cons, ih, lookup_mergeEntry, candidates_cons]
    by_cases h : e.1 = k <;> simp [h, best]

lemma step_spec (v : Option PlayerState) (c : PlayerState) :
    ∃ w, step v c = some w ∧ c.timestamp ≤ w.timestamp ∧
      (∀ x, v = some x → x.timestamp ≤ w.timestamp) ∧
      (w = c ∨ v = some w) := by
  cases v with
  | none => exact ⟨c, rfl, le_refl _, by simp, Or.inl rfl⟩
  | some x =>
    by_cases h : c.timestamp > x.timestamp
    · refine ⟨c, by simp [step, h], le_refl _, ?_, Or.inl rfl⟩
      intro y hy
      cases hy
      omega
    · refine ⟨x, by simp [step, h], by omega, ?_, Or.inr rfl⟩
      intro y hy
      cases hy
      exact le_refl _

lemma best_spec (cs : List PlayerState) (v : Option PlayerState)
    (u : PlayerState) (h : best v cs = some u) :
    (∀ e ∈ cs, e.timestamp ≤ u.timestamp) ∧
      (∀ x, v = some x → x.timestamp ≤ u.timestamp) ∧
      (v = some u ∨ u ∈ cs) := by
  induction cs generalizing v with
  | nil =>
    refine ⟨by simp, ?_, Or.inl h⟩
    intro x hx
    rw [hx] at h
    cases h
    exact le_refl _
  | cons c cs ih =>
    obtain ⟨w, hw, hcw, hvw, hwc⟩ := step_spec v c
    have hb : best (some w) cs = some u := by
      simpa [best, hw] using h
    obtain ⟨hall, hinit, hmem⟩ := ih (some w) hb
    have hwu : w.timestamp ≤ u.timestamp := hinit w rfl
    refine ⟨?_, ?_, ?_⟩
    · intro e he
      rcases List.mem_cons.mp he with he | he
      · subst he; omega
      · exact hall e he
    · intro x hx
      have := hvw x hx
      omega
    · rcases hmem with hmem | hmem
      · rcases hwc with hwc | hwc
        · right
          have hu : u = c := by
            injection hmem with h2
            rw [← h2, hwc]
          rw [hu]
          exact List.mem_cons_self _ _
        · left
          rw [hwc]
          exact hmem
      · right
        exact List.mem_cons_of_mem _ hmem

lemma best_some (cs : List PlayerState) (w : PlayerState) :
    ∃ u, best (some w) cs = some u := by
  induction cs generalizing w with
  | nil => exact ⟨w, rfl⟩
  | cons c cs ih =>
    obtain ⟨x, hx, -⟩ := step_spec (some w) c
    obtain ⟨u, hu⟩ := ih x
    exact ⟨u, by simpa [best, hx] using hu⟩

lemma best_isSome_of_mem (v : Option PlayerState) (cs : List PlayerState)
    (c : PlayerState) (h : c ∈ cs) : ∃ u, best v cs = some u := by
  cases v with
  | some w => exact best_some cs w
  | none =>
    cases cs with
    | nil => cases h
    | cons d cs =>
      have : best none (d :: cs) = best (some d) cs := by simp [best, step]
      rw [this]
      exact best_some cs d

lemma mem_candidates_self (p : Store) (e : String × PlayerState)
    (he : e ∈ p) : e.2 ∈ candidates p e.1 := by
  simp only [candidates, List.mem_map, List.mem_filter]
  exact ⟨e, ⟨he, by simp⟩, rfl⟩

lemma foldl_mergeEntry_id (p : List (String × PlayerState)) (M : Store)
    (h : ∀ e ∈ p, mergeEntry M e = M) : p.foldl mergeEntry M = M := by
  induction p with
  | nil => rfl
  | cons e p ih =>
    rw [List.foldl_cons, h e (List.mem_cons_self _ _)]
    exact ih fun f hf => h f (List.mem_cons_of_mem _ hf)

lemma mergeEntry_id_of_ge (M : Store) (e : String × PlayerState)
    (w : PlayerState) (hl : lookup M e.1 = some w)
    (hge : ¬ e.2.timestamp > w.timestamp) : mergeEntry M e = M := by
  unfold mergeEntry
  rw [hl]
  simp [hge]

lemma lookup_eq_some_of_mem_nodup (s : Store)
    (hnd : (s.map Prod.fst).Nodup) (e : String × PlayerState) (he : e ∈ s) :
    lookup s e.1 = some e.2 := by
  induction s with
  | nil => cases he
  | cons f rest ih =>
    rw [List.map_cons, List.nodup_cons] at hnd
    rcases List.mem_cons.mp he with he | he
    · subst he; simp [lookup]
    · have hne : f.1 ≠ e.1 := by
        intro hEq
        exact hnd.1 (hEq ▸ List.mem_map_of_mem Prod.fst he)
      have hstep : lookup (f :: rest) e.1 = lookup rest e.1 := by
        simp [lookup, hne]
      rw [hstep]
      exact ih hnd.2 he

lemma candidates_eq_nil_of_not_mem (p : Store) (k : String)
    (h : k ∉ p.map Prod.fst) : candidates p k = [] := by
  induction p with
  | nil => rfl
  | cons e rest ih =>
    rw [List.map_cons] at h
    have h1 : e.1 ≠ k := fun hEq => h (hEq ▸ List.mem_cons_self _ _)
    rw [candidates_cons]
    simp only [h1, if_false]
    exact ih fun hk => h (List.mem_cons_of_mem _ hk)

lemma candidates_eq_single (p : Store) (k : String) (inc : PlayerState)
    (hnd : (p.map Prod.fst).Nodup) (hm : (k, inc) ∈ p) :
    candidates p k = [inc] := by
  induction p with
  | nil => cases hm
  | cons e rest ih =>
    rw [List.map_cons, List.nodup_cons] at hnd
    rcases List.mem_cons.mp hm with hm | hm
    · rw [← hm] at hnd ⊢
      rw [candidates_cons, candidates_eq_nil_of_not_mem rest k hnd.1]
      simp
    · have h1 : e.1 ≠ k := by
        intro hEq
        exact hnd.1 (hEq ▸ List.mem_map_of_mem Prod.fst hm)
      rw [candidates_cons]
      simp only [h1, if_false]
      exact ih hnd.2 hm

lemma insert_append_of_forall_ne (acc : Store) (k : String) (v : PlayerState)
    (h : ∀ a ∈ acc, a.1 ≠ k) : insert acc k v = acc ++ [(k, v)] := by
  induction acc with
  | nil => rfl
  | cons e rest ih =>
    have he : e.1 ≠ k := h e (List.mem_cons_self _ _)
    simp only [insert, he, if_false, List.cons_append, List.cons.injEq,
      true_and]
    exact ih fun a ha => h a (List.mem_cons_of_mem _ ha)

lemma getPlayerState_aux (s : Store) :
    ∀ acc : Store, (∀ e ∈ s, ∀ a ∈ acc, a.1 ≠ e.1) →
      (s.map Prod.fst).Nodup →
      s.foldl (fun r e => insert r e.1 e.2) acc = acc ++ s := by
  induction s with
  | nil => intro acc _ _; simp
  | cons e rest ih =>
    intro acc hdisj hnd
    rw [List.map_cons, List.nodup_cons] at hnd
    have hdisj2 : ∀ f ∈ rest, ∀ a ∈ acc ++ [(e.1, e.2)], a.1 ≠ f.1 := by
      intro f hf a ha
      rcases List.mem_append.mp ha with ha | ha
      · exact hdisj f (List.mem_cons_of_mem _ hf) a ha
      · have haa : a = (e.1, e.2) := by simpa using ha
        rw [haa]
        intro hEq
        exact hnd.1 (hEq ▸ List.mem_map_of_mem Prod.fst hf)
    rw [List.foldl_cons,
      insert_append_of_forall_ne acc e.1 e.2
        (fun a ha => hdisj e (List.mem_cons_self _ _) a ha),
      ih (acc ++ [(e.1, e.2)]) hdisj2 hnd.2]
    simp

lemma getPlayerState_eq (s : Store) (hnd : (s.map Prod.fst).Nodup) :
    getPlayerState s = s := by
  have h := getPlayerState_aux s [] (by intro e _ a ha; cases ha) hnd
  simpa [getPlayerState] using h

/-- C1: for every store, every incoming map with one entry per id, and
every id, `mergeState` replaces the local entry iff the id is locally
absent or the incoming timestamp is strictly greater (equal or lesser
incoming timestamps leave the local entry unchanged); ids absent from the
incoming map keep their local entry, and no entry is ever removed. -/
theorem mergeState_lww_per_id (s p : Store)
    (hnd : (p.map Prod.fst).Nodup) (k : String) :
    (∀ inc, (k, inc) ∈ p →
        lookup (mergeState s p) k =
          match lookup s k with
          | none => some inc
          | some loc =>
            if inc.timestamp > loc.timestamp then some inc else some loc) ∧
      (k ∉ p.map Prod.fst → lookup (mergeState s p) k = lookup s k) ∧
      (∀ v, lookup s k = some v →
        ∃ w, lookup (mergeState s p) k = some w) := by
  refine ⟨?_, ?_, ?_⟩
  · intro inc hm
    rw [lookup_mergeState, candidates_eq_single p k inc hnd hm]
    cases hv : lookup s k with
    | none => simp [best, step]
    | some loc =>
      by_cases h : inc.timestamp > loc.timestamp <;> simp [best, step, h]
  · intro hk
    rw [lookup_mergeState, candidates_eq_nil_of_not_mem p k hk]
    rfl
  · intro v hv
    rw [lookup_mergeState, hv]
    exact best_some _ v

theorem mergeState_lww_per_id_witness :
    lookup (mergeState [("a", ⟨1, 10⟩)] [("a", ⟨2, 20⟩), ("b", ⟨3, 5⟩)])
      "a" = some ⟨2, 20⟩ := by
  have h := (mergeState_lww_per_id [("a", ⟨1, 10⟩)]
      [("a", ⟨2, 20⟩), ("b", ⟨3, 5⟩)] (by decide) "a").1 ⟨2, 20⟩ (by decide)
  rw [h]
  decide

/-- C3: function `updatePlayerScore` stamps the given wall-clock time and
unconditionally overwrites the entry for the id (creating it if absent),
regardless of any existing timestamp; other ids are untouched. -/
theorem updatePlayerScore_unconditional (s : Store) (pid : String)
    (score now : Int) (q : String) :
    lookup (updatePlayerScore s pid score now) q =
      if pid = q then some { score := score, timestamp := now }
      else lookup s q :=
  lookup_insert s pid _ q

/-- C4: merging the same payload twice in succession equals merging it
once. -/
theorem mergeState_idempotent (s p : Store) :
    mergeState (mergeState s p) p = mergeState s p := by
  show p.foldl mergeEntry (mergeState s p) = mergeState s p
  apply foldl_mergeEntry_id
  intro e he
  have hc := mem_candidates_self p e he
  obtain ⟨u, hu⟩ := best_isSome_of_mem (lookup s e.1) (candidates p e.1) e.2 hc
  have hlk : lookup (mergeState s p) e.1 = some u := by
    rw [lookup_mergeState]
    exact hu
  have hle := (best_spec _ _ _ hu).1 e.2 hc
  exact mergeEntry_id_of_ge _ e u hlk (by omega)

/-- C6: function `getPlayerState` returns exactly the store's entries (an
independent copy in the value semantics of the model: the snapshot is a
fresh list determined only by the state at the call, so later mutations of
the store cannot alter it, and the call itself does not mutate the
store). -/
theorem getPlayerState_snapshot (s : Store)
    (hnd : (s.map Prod.fst).Nodup) :
    getPlayerState s = s ∧ ∀ k, lookup (getPlayerState s) k = lookup s k := by
  have h := getPlayerState_eq s hnd
  exact ⟨h, fun k => by rw [h]⟩

theorem getPlayerState_snapshot_witness :
    getPlayerState [("a", ⟨1, 2⟩)] = [("a", ⟨1, 2⟩)] ∧
      ∀ k, lookup (getPlayerState [("a", ⟨1, 2⟩)]) k =
        lookup [("a", ⟨1, 2⟩)] k :=
  getPlayerState_snapshot [("a", ⟨1, 2⟩)] (by decide)

/-- C7: a gossip tick with an empty peer list is a no-op: no peer is
selected, no delivery attempt is made, and the server (in particular its
player map) is unchanged. -/
theorem gossipTick_empty_noop (gs : GameServer) (r : Nat) (postOk : Bool)
    (h : gs.Peers = []) : gs.gossipTick r postOk = (gs, none) := by
  unfold GameServer.gossipTick
  rw [h]
  rfl

theorem gossipTick_empty_noop_witness :
    GameServer.gossipTick ⟨"n1", "localhost:8081", [], []⟩ 0 true =
      (⟨"n1", "localhost:8081", [], []⟩, none) :=
  gossipTick_empty_noop ⟨"n1", "localhost:8081", [], []⟩ 0 true rfl

/-- C8: no core operation (gossip tick, delivery to a peer — successful or
failed —, local write, merge, snapshot read) ever changes the peer list,
and a delivery failure is swallowed: `gossipWithPeer` propagates no error
to its caller. -/
theorem peers_immutable (gs : GameServer) (o : ServerOp) :
    (applyServerOp gs o).Peers = gs.Peers ∧
      ∀ peerAddr postOk,
        (gs.gossipWithPeer peerAddr postOk).2.2 = none := by
  constructor
  · cases o with
    | tick r postOk =>
      show (gs.gossipTick r postOk).1.Peers = gs.Peers
      unfold GameServer.gossipTick GameServer.gossipWithPeer
      cases postOk <;> split <;> rfl
    | deliver peerAddr postOk => cases postOk <;> rfl
    | update playerId score now => rfl
    | mergeIncoming m => rfl
    | snapshot => rfl
  · intro peerAddr postOk
    cases postOk <;> rfl

/-- C10: merging a store's own snapshot back into the same store is a
no-op, and merging an empty payload is a no-op. -/
theorem mergeState_self_noop (s : Store) (hnd : (s.map Prod.fst).Nodup) :
    mergeState s (getPlayerState s) = s ∧ mergeState s [] = s := by
  constructor
  · rw [getPlayerState_eq s hnd]
    show s.foldl mergeEntry s = s
    apply foldl_mergeEntry_id
    intro e he
    exact mergeEntry_id_of_ge s e e.2
      (lookup_eq_some_of_mem_nodup s hnd e he) (by omega)
  · rfl

theorem mergeState_self_noop_witness :
    mergeState [("a", ⟨1, 2⟩), ("b", ⟨3, 4⟩)]
        (getPlayerState [("a", ⟨1, 2⟩), ("b", ⟨3, 4⟩)]) =
      [("a", ⟨1, 2⟩), ("b", ⟨3, 4⟩)] ∧
      mergeState [("a", ⟨1, 2⟩), ("b", ⟨3, 4⟩)] [] =
        [("a", ⟨1, 2⟩), ("b", ⟨3, 4⟩)] :=
  mergeState_self_noop [("a", ⟨1, 2⟩), ("b", ⟨3, 4⟩)] (by decide)

lemma lookup_foldl_mergeState (ps : List Store) (s : Store) (k : String) :
    lookup (ps.foldl mergeState s) k =
      best (lookup s k) ((ps.map fun p => candidates p k).flatten) := by
  induction ps generalizing s with
  | nil => rfl
  | cons p ps ih =>
    rw [List.foldl_cons, ih, lookup_mergeState, List.map_cons,
      List.flatten_cons]
    simp only [best, List.foldl_append]

lemma mem_candidates_iff (p : Store) (k : String) (c : PlayerState) :
    c ∈ candidates p k ↔ (k, c) ∈ p := by
  constructor
  · intro hc
    simp only [candidates, List.mem_map, List.mem_filter,
      decide_eq_true_eq] at hc
    obtain ⟨e, ⟨he, hek⟩, hec⟩ := hc
    obtain ⟨e1, e2⟩ := e
    cases hek
    cases hec
    exact he
  · intro h
    simp only [candidates, List.mem_map, List.mem_filter, decide_eq_true_eq]
    exact ⟨(k, c), ⟨h, rfl⟩, rfl⟩

lemma step_step_comm (z : Option PlayerState) (x y : PlayerState)
    (h : x.timestamp = y.timestamp → x = y) :
    step (step z x) y = step (step z y) x := by
  by_cases hxy : x.timestamp = y.timestamp
  · rw [h hxy]
  · cases z with
    | none =>
      by_cases h1 : y.timestamp > x.timestamp
      · simp [step, h1, show ¬ x.timestamp > y.timestamp by omega]
      · simp [step, h1, show x.timestamp > y.timestamp by omega]
    | some w =>
      by_cases h1 : x.timestamp > w.timestamp <;>
        by_cases h2 : y.timestamp > w.timestamp
      · by_cases h3 : x.timestamp > y.timestamp
        · simp [step, h1, h2, h3, show ¬ y.timestamp > x.timestamp by omega]
        · simp [step, h1, h2, h3, show y.timestamp > x.timestamp by omega]
      · simp [step, h1, h2, show ¬ y.timestamp > x.timestamp by omega]
      · simp [step, h1, h2, show ¬ x.timestamp > y.timestamp by omega]
      · simp [step, h1, h2]

/-- Tie coherence of a collection of payloads: two entries for the same id
carrying the same timestamp carry the same value. -/
def coherent (ps : List Store) : Bool :=
  ps.all fun p => ps.all fun q => p.all fun e => q.all fun f =>
    decide (e.1 = f.1 → e.2.timestamp = f.2.timestamp → e.2 = f.2)

lemma coherent_spec (ps : List Store) (h : coherent ps = true) :
    ∀ p ∈ ps, ∀ q ∈ ps, ∀ e ∈ p, ∀ f ∈ q,
      e.1 = f.1 → e.2.timestamp = f.2.timestamp → e.2 = f.2 := by
  intro p hp q hq e hep f hfq
  have h1 := List.all_eq_true.mp h p hp
  have h2 := List.all_eq_true.mp h1 q hq
  have h3 := List.all_eq_true.mp h2 e hep
  have h4 := List.all_eq_true.mp h3 f hfq
  exact decide_eq_true_eq.mp h4

/-- C5 (amended): for a collection of payloads in which any two entries for
the same id with equal timestamps carry equal values, applying `mergeState`
with the payloads in any order yields the same final map (extensionally, at
every id). -/
theorem mergeState_perm_coherent (s : Store) (ps qs : List Store)
    (hperm : ps.Perm qs) (hcoh : coherent ps = true) (k : String) :
    lookup (ps.foldl mergeState s) k = lookup (qs.foldl mergeState s) k := by
  rw [lookup_foldl_mergeState, lookup_foldl_mergeState]
  have hpf : ((ps.map fun p => candidates p k).flatten).Perm
      ((qs.map fun p => candidates p k).flatten) := (hperm.map _).flatten
  refine hpf.foldl_eq' ?_ (lookup s k)
  intro x hx y hy z
  simp only [List.mem_flatten, List.mem_map] at hx hy
  obtain ⟨lx, ⟨p, hp, hpl⟩, hxl⟩ := hx
  obtain ⟨ly, ⟨q, hq, hql⟩, hyl⟩ := hy
  apply step_step_comm
  intro hts
  have hxe : (k, x) ∈ p := (mem_candidates_iff p k x).mp (hpl ▸ hxl)
  have hye : (k, y) ∈ q := (mem_candidates_iff q k y).mp (hql ▸ hyl)
  exact coherent_spec ps hcoh p hp q hq (k, x) hxe (k, y) hye rfl hts

theorem mergeState_perm_counterexample :
    ¬ lookup (([[("a", ⟨1, 5⟩)], [("a", ⟨2, 5⟩)]] : List Store).foldl
          mergeState []) "a" =
        lookup (([[("a", ⟨2, 5⟩)], [("a", ⟨1, 5⟩)]] : List Store).foldl
          mergeState []) "a" := by decide

theorem mergeState_perm_coherent_witness :
    coherent [[("a", ⟨1, 5⟩)], [("b", ⟨2, 7⟩)]] = true ∧
      lookup (([[("a", ⟨1, 5⟩)], [("b", ⟨2, 7⟩)]] : List Store).foldl
          mergeState []) "a" =
        lookup (([[("b", ⟨2, 7⟩)], [("a", ⟨1, 5⟩)]] : List Store).foldl
          mergeState []) "a" :=
  ⟨by decide,
    mergeState_perm_coherent [] [[("a", ⟨1, 5⟩)], [("b", ⟨2, 7⟩)]]
      [[("b", ⟨2, 7⟩)], [("a", ⟨1, 5⟩)]] (by decide) (by decide) "a"⟩

/-- The stored entry for `k` is one of the values in `obs` and carries the
maximum timestamp appearing in `obs` (absent iff nothing was observed). -/
def MaxInv (s : Store) (k : String) (obs : List PlayerState) : Prop :=
  (lookup s k = none ∧ obs = []) ∨
    (∃ w, lookup s k = some w ∧ w ∈ obs ∧
      ∀ e ∈ obs, e.timestamp ≤ w.timestamp)

lemma MaxInv_congr (s t : Store) (k : String) (obs : List PlayerState)
    (h : lookup t k = lookup s k) : MaxInv s k obs → MaxInv t k obs := by
  unfold MaxInv
  rw [h]
  exact id

lemma MaxInv_merge (s : Store) (m : Store) (k : String)
    (obs : List PlayerState) (hinv : MaxInv s k obs) :
    MaxInv (mergeState s m) k (obs ++ candidates m k) := by
  rcases hinv with ⟨hnone, hobs⟩ | ⟨w, hw, hwmem, hwmax⟩
  · subst hobs
    cases hc : candidates m k with
    | nil =>
      left
      refine ⟨?_, rfl⟩
      rw [lookup_mergeState, hnone, hc]
      rfl
    | cons c cs =>
      right
      have hb : best none (c :: cs) = best (some c) cs := by simp [best, step]
      obtain ⟨u, hu⟩ := best_some cs c
      have hlk : lookup (mergeState s m) k = some u := by
        rw [lookup_mergeState, hnone, hc, hb]
        exact hu
      obtain ⟨hall, hinit, hmem⟩ := best_spec cs (some c) u hu
      refine ⟨u, hlk, ?_, ?_⟩
      · simp only [List.nil_append]
        rcases hmem with hm1 | hm1
        · injection hm1 with hm1
          rw [← hm1]
          exact List.mem_cons_self _ _
        · exact List.mem_cons_of_mem _ hm1
      · intro e he
        simp only [List.nil_append] at he
        rcases List.mem_cons.mp he with he | he
        · rw [he]
          exact hinit c rfl
        · exact hall e he
  · right
    obtain ⟨u, hu⟩ := best_some (candidates m k) w
    have hlk : lookup (mergeState s m) k = some u := by
      rw [lookup_mergeState, hw]
      exact hu
    obtain ⟨hall, hinit, hmem⟩ := best_spec _ (some w) u hu
    refine ⟨u, hlk, ?_, ?_⟩
    · rcases hmem with hm1 | hm1
      · injection hm1 with hm1
        exact List.mem_append.mpr (Or.inl (hm1 ▸ hwmem))
      · exact List.mem_append.mpr (Or.inr hm1)
    · intro e he
      rcases List.mem_append.mp he with he | he
      · have h1 := hwmax e he
        have h2 := hinit w rfl
        omega
      · exact hall e he

lemma run_max_aux (ops : List Op) :
    ∀ (s : Store) (k : String) (past : List PlayerState),
      setFreshAux k past ops = true → MaxInv s k past →
      MaxInv (run s ops) k (past ++ observed k ops) := by
  induction ops with
  | nil =>
    intro s k past _ hinv
    simpa [run, observed] using hinv
  | cons op rest ih =>
    intro s k past hfresh hinv
    cases op with
    | set pid sc now =>
      by_cases hpid : pid = k
      · subst hpid
        simp only [setFreshAux, eq_self_iff_true, if_true, Bool.and_eq_true,
          List.all_eq_true, decide_eq_true_eq] at hfresh
        obtain ⟨hlt, hrest⟩ := hfresh
        have hstep : MaxInv (updatePlayerScore s pid sc now) pid
            (past ++ [{ score := sc, timestamp := now }]) := by
          right
          refine ⟨{ score := sc, timestamp := now }, ?_, ?_, ?_⟩
          · simp [updatePlayerScore, lookup_insert]
          · exact List.mem_append.mpr (Or.inr (List.mem_singleton.mpr rfl))
          · intro e he
            rcases List.mem_append.mp he with he | he
            · have := hlt e he
              show e.timestamp ≤ now
              omega
            · rw [List.mem_singleton.mp he]
        have hres := ih (updatePlayerScore s pid sc now) pid
          (past ++ [{ score := sc, timestamp := now }]) hrest hstep
        have hobs : observed pid (Op.set pid sc now :: rest) =
            { score := sc, timestamp := now } :: observed pid rest := by
          simp [observed]
        have hrun : run s (Op.set pid sc now :: rest) =
            run (updatePlayerScore s pid sc now) rest := rfl
        rw [hrun, hobs,
          show past ++ ({ score := sc, timestamp := now } ::
              observed pid rest) =
            (past ++ [{ score := sc, timestamp := now }]) ++
              observed pid rest by simp]
        exact hres
      · simp only [setFreshAux, if_neg hpid, Bool.true_and,
          List.append_nil] at hfresh
        have hstep : MaxInv (updatePlayerScore s pid sc now) k past := by
          refine MaxInv_congr s _ k past ?_ hinv
          simp [updatePlayerScore, lookup_insert, hpid]
        have hres := ih (updatePlayerScore s pid sc now) k past hfresh hstep
        have hobs : observed k (Op.set pid sc now :: rest) =
            observed k rest := by
          simp [observed, hpid]
        have hrun : run s (Op.set pid sc now :: rest) =
            run (updatePlayerScore s pid sc now) rest := rfl
        rw [hrun, hobs]
        exact hres
    | merge m =>
      simp only [setFreshAux] at hfresh
      have hres := ih (mergeState s m) k (past ++ candidates m k) hfresh
        (MaxInv_merge s m k past hinv)
      have hobs : observed k (Op.merge m :: rest) =
          candidates m k ++ observed k rest := rfl
      have hrun : run s (Op.merge m :: rest) =
          run (mergeState s m) rest := rfl
      rw [hrun, hobs,
        show past ++ (candidates m k ++ observed k rest) =
          (past ++ candidates m k) ++ observed k rest by simp]
      exact hres

/-- C2 (amended): starting from the empty store, for every sequence of
`updatePlayerScore` and `mergeState` operations in which each local write's
timestamp is strictly greater than every timestamp observed for that id
before it, after the whole run (in particular after any final merge) the
stored entry for each id is one of the observed values for that id and
carries the maximum observed timestamp. -/
theorem run_max_observed (ops : List Op) (k : String)
    (hfresh : setFresh k ops = true) :
    MaxInv (run [] ops) k (observed k ops) := by
  have hinit : MaxInv [] k [] := Or.inl ⟨rfl, rfl⟩
  have h := run_max_aux ops [] k [] hfresh hinit
  simpa using h

theorem run_max_observed_witness :
    setFresh "a" [Op.set "a" 1 10, Op.merge [("a", ⟨5, 20⟩)]] = true ∧
      MaxInv (run [] [Op.set "a" 1 10, Op.merge [("a", ⟨5, 20⟩)]]) "a"
        (observed "a" [Op.set "a" 1 10, Op.merge [("a", ⟨5, 20⟩)]]) :=
  ⟨by decide, run_max_observed _ "a" (by decide)⟩

/-- C2 fails as stated: a local write stamped with a wall-clock time lower
than an already-merged timestamp (clock skew between peers) overwrites the
entry, so after a later merge the stored timestamp is not the maximum
observed. -/
theorem run_max_counterexample :
    lookup (run [] [Op.merge [("a", ⟨5, 100⟩)], Op.set "a" 7 50,
        Op.merge []]) "a" = some ⟨7, 50⟩ ∧
      (⟨5, 100⟩ : PlayerState) ∈ observed "a"
        [Op.merge [("a", ⟨5, 100⟩)], Op.set "a" 7 50, Op.merge []] ∧
      ¬ MaxInv (run [] [Op.merge [("a", ⟨5, 100⟩)], Op.set "a" 7 50,
          Op.merge []]) "a"
        (observed "a" [Op.merge [("a", ⟨5, 100⟩)], Op.set "a" 7 50,
          Op.merge []]) := by
  refine ⟨by decide, by decide, ?_⟩
  intro h
  rcases h with ⟨h1, -⟩ | ⟨w, hw, -, hmax⟩
  · exact absurd h1 (by decide)
  · have hlk : lookup (run [] [Op.merge [("a", ⟨5, 100⟩)],
        Op.set "a" 7 50, Op.merge []]) "a" = some ⟨7, 50⟩ := by decide
    rw [hlk] at hw
    injection hw with hw
    have h100 := hmax ⟨5, 100⟩ (by decide)
    rw [← hw] at h100
    exact absurd h100 (by decide)

/-- C9: the update handler calls `UpdatePlayerScore` iff the request
carries a non-empty player id and a scannable integer score; every
malformed input (empty id, empty/missing score, unscannable score) is
answered with status 400 and leaves the server — in particular its player
map — unchanged. -/
theorem HandleUpdate_spec (gs : GameServer) (pid scoreStr : String)
    (now : Int) :
    (∀ v, pid ≠ "" → scoreStr ≠ "" → scanInt scoreStr = some v →
        HandleUpdate gs pid scoreStr now =
          (gs.UpdatePlayerScore pid v now, 200)) ∧
      (pid = "" ∨ scoreStr = "" ∨ scanInt scoreStr = none →
        HandleUpdate gs pid scoreStr now = (gs, 400)) := by
  constructor
  · intro v hpid hs hscan
    simp [HandleUpdate, hpid, hs, hscan]
  · intro h
    rcases h with h | h | h
    · simp [HandleUpdate, h]
    · simp [HandleUpdate, h]
    · by_cases h2 : pid = "" <;> by_cases h3 : scoreStr = "" <;>
        simp [HandleUpdate, h, h2, h3]

theorem HandleUpdate_spec_witness :
    scanInt "42" = some 42 ∧
      HandleUpdate ⟨"n1", "localhost:8081", [], []⟩ "alice" "42" 3 =
        ((⟨"n1", "localhost:8081", [], []⟩ : GameServer).UpdatePlayerScore
          "alice" 42 3, 200) ∧
      HandleUpdate ⟨"n1", "localhost:8081", [], []⟩ "alice" "x7" 3 =
        (⟨"n1", "localhost:8081", [], []⟩, 400) :=
  ⟨by decide,
    (HandleUpdate_spec ⟨"n1", "localhost:8081", [], []⟩ "alice" "42" 3).1
      42 (by decide) (by decide) (by decide),
    (HandleUpdate_spec ⟨"n1", "localhost:8081", [], []⟩ "alice" "x7" 3).2
      (Or.inr (Or.inr (by decide)))⟩

end Gossiper
